import Mathlib

/-!
# Verification of the pagerank-rs graph store and solver

A shallow embedding of `src/table.rs` (and the relevant call pattern of
`src/main.rs`). Modelling conventions:

* Rust `String` / `&str` values are modelled as `List Char` (`Str` below);
  byte positions coincide with character positions for the ASCII inputs used.
* Rust `f64` arithmetic is modelled as exact rational arithmetic (`ℚ`);
  the operation structure (order of sums, divisions, branches) follows the
  source exactly.
* `usize` is modelled as `ℕ` (no claim exercises 64-bit overflow).
* The two `HashMap`s are modelled as association lists with unique keys
  (the source only ever inserts a key that is absent), looked up with
  `alistLookup`; insertion order is taken as append order.
* A Rust panic (`unwrap` on a parse failure, `HashMap` indexing with a
  missing key) is modelled as `none` / `ReadResult.panicked`.
* `Vec::resize` / `resize_with` is `resizeList` (truncates or pads, as in
  Rust); `Vec::reserve` is semantically the identity.
-/

abbrev Str := List Char

/-- Association-list lookup, modelling `HashMap::get` (keys are unique in
every map the program builds). -/
def alistLookup {α β : Type} [DecidableEq α] (a : α) : List (α × β) → Option β
  | [] => none
  | (k, b) :: es => if a = k then some b else alistLookup a es

/-- `Vec::resize` / `resize_with`: truncate to `n` or pad with `dflt`. -/
def resizeList {α : Type} (l : List α) (n : ℕ) (dflt : α) : List α :=
  l.take n ++ List.replicate (n - l.length) dflt

/-- The `Table` struct of `src/table.rs` (lines 12-24). -/
structure Table where
  trace : Bool
  alpha : ℚ
  convergence : ℚ
  max_iterations : ℕ
  delim : Str
  numeric : Bool
  num_outgoing : List ℕ
  rows : List (List ℕ)
  nodes_to_idx : List (Str × ℕ)
  idx_to_nodes : List (ℕ × Str)
  pr : List ℚ
  deriving DecidableEq

def DEFAULT_ALPHA : ℚ := 85 / 100

def DEFAULT_CONVERGENCE : ℚ := 1 / 100000

def DEFAULT_MAX_ITERATIONS : ℕ := 10000

def DEFAULT_NUMERIC : Bool := false

def DEFAULT_DELIM : Str := [' ', '=', '>', ' ']

/-- `Table::default` (lines 26-42). -/
def Table.new : Table :=
  { trace := false
    alpha := DEFAULT_ALPHA
    convergence := DEFAULT_CONVERGENCE
    max_iterations := DEFAULT_MAX_ITERATIONS
    delim := DEFAULT_DELIM
    numeric := DEFAULT_NUMERIC
    num_outgoing := []
    rows := []
    nodes_to_idx := []
    idx_to_nodes := []
    pr := [] }

/-- `Table::insert_into_vector` (lines 45-64): walk to the first element
greater than `t` (the loop index `i`), then either push at the end
(returning `true`) or insert at `i` (returning `false`). -/
def Table.insert_into_vector (v : List ℕ) (t : ℕ) : List ℕ × Bool :=
  let i := (v.takeWhile (fun item => ¬ item > t)).length
  if i = v.length then
    (v ++ [t], true)
  else
    (v.take i ++ t :: v.drop i, false)

/-- `Table::reset` (lines 68-74). -/
def Table.reset (t : Table) : Table :=
  { t with num_outgoing := [], rows := [], nodes_to_idx := [],
           idx_to_nodes := [], pr := [] }

/-- `Table::insert_mapping` (lines 81-91). -/
def Table.insert_mapping (t : Table) (key : Str) : Table × ℕ :=
  match alistLookup key t.nodes_to_idx with
  | some index => (t, index)
  | none =>
      let idx := t.nodes_to_idx.length
      ({ t with nodes_to_idx := t.nodes_to_idx ++ [(key, idx)],
                idx_to_nodes := t.idx_to_nodes ++ [(idx, key)] }, idx)

/-- `Table::add_arc` (lines 94-128); `frm`/`dst` are the source's
`from`/`to` (both reserved words in Lean).  `max_dim` is incremented before
the resizes, exactly as in the source. -/
def Table.add_arc (t : Table) (frm dst : ℕ) : Table × Bool :=
  let max_dim := if frm > dst then frm else dst
  let t1 :=
    if t.rows.length ≤ max_dim then
      { t with
        rows := resizeList t.rows (max_dim + 1) [],
        num_outgoing :=
          if t.num_outgoing.length ≤ max_dim + 1 then
            resizeList t.num_outgoing (max_dim + 1) 0
          else t.num_outgoing }
    else t
  let p := Table.insert_into_vector (t1.rows.getD dst []) frm
  let t2 := { t1 with rows := t1.rows.set dst p.1 }
  if p.2 then
    ({ t2 with
       num_outgoing := t2.num_outgoing.set frm (t2.num_outgoing.getD frm 0 + 1) },
     true)
  else (t2, false)

/-- `Table::reserve` (lines 142-145): a capacity hint only; semantically
the identity. -/
def Table.reserve (t : Table) (_size : ℕ) : Table := t

/-- `Table::get_num_rows` (lines 148-150). -/
def Table.get_num_rows (t : Table) : ℕ := t.rows.length

/-- `Table::set_num_rows` (lines 153-156). -/
def Table.set_num_rows (t : Table) (num_rows : ℕ) : Table :=
  { t with num_outgoing := resizeList t.num_outgoing num_rows 0,
           rows := resizeList t.rows num_rows [] }

/-- `Table::get_pagerank` (lines 300-302). -/
def Table.get_pagerank (t : Table) : List ℚ := t.pr

/-- `Table::get_node_name` (lines 308-314).  The named-mode branch indexes
`idx_to_nodes` directly and panics on a missing key; the panic is modelled
as `none`.  `index.to_string()` is the decimal digit string. -/
def Table.get_node_name (t : Table) (index : ℕ) : Option Str :=
  if t.numeric then some (Nat.toDigits 10 index)
  else alistLookup index t.idx_to_nodes

/-- `Table::set_alpha` (lines 326-328). -/
def Table.set_alpha (t : Table) (a : ℚ) : Table := { t with alpha := a }

/-- `Table::set_max_iterations` (lines 338-340). -/
def Table.set_max_iterations (t : Table) (i : ℕ) : Table :=
  { t with max_iterations := i }

/-- `Table::set_convergence` (lines 350-352). -/
def Table.set_convergence (t : Table) (c : ℚ) : Table :=
  { t with convergence := c }

/-- `Table::set_numeric` (lines 373-375). -/
def Table.set_numeric (t : Table) (n : Bool) : Table := { t with numeric := n }

/-- `Table::set_delim` (lines 387-389). -/
def Table.set_delim (t : Table) (d : Str) : Table := { t with delim := d }

/-- C1: claimed — `add_arc` inserts `from` into `rows[to]` at its sorted
position only if absent, increments `num_outgoing[from]` only on a genuine
new insertion, and returns `true` exactly for a newly added edge; feeding
the edge `(0, 1)` twice should leave `out_degree[0] = 1` and
`rows[1] = [0]`.  The code instead always inserts (`insert_into_vector`
never tests for equality), so the duplicate is appended again, the
out-degree is incremented again, and the duplicate call returns `true`. -/
theorem C1_add_arc_duplicate_bug :
    (((Table.new.add_arc 0 1).1.add_arc 0 1).1.rows = [[], [0, 0]]) ∧
    (((Table.new.add_arc 0 1).1.add_arc 0 1).1.num_outgoing = [2, 0]) ∧
    (((Table.new.add_arc 0 1).1.add_arc 0 1).2 = true) := by
  decide

/-- C2: claimed — in every store reachable by `add_arc` calls, any
`u ∈ rows[i]` has `out_degree[u] ≥ 1`, so the solver's zero-out-degree
branch is unreachable.  The code violates this: inserting in the middle of
a row makes `insert_into_vector` return `false`, so the out-degree is never
incremented.  After `add_arc 1 2` then `add_arc 0 2` (from the empty
store), `0 ∈ rows[2]` while `out_degree[0] = 0`. -/
theorem C2_membership_without_outdegree_bug :
    (0 ∈ (((Table.new.add_arc 1 2).1.add_arc 0 2).1.rows.getD 2 [])) ∧
    ((((Table.new.add_arc 1 2).1.add_arc 0 2).1.num_outgoing.getD 0 1) = 0) := by
  decide

/-! ## The PageRank solver (`Table::pagerank`, lines 209-297)

The local state of the `while` loop.  The Rust loop guard is
`diff > convergence && num_iterations < max_iterations`; the second
conjunct is realised below by running `prLoop` with
`max_iterations - num_iterations` as fuel (each body run increments
`num_iterations` by one and spends one unit of fuel). -/

structure PRState where
  pr : List ℚ
  old_pr : List ℚ
  diff : ℚ
  num_iterations : ℕ
  deriving DecidableEq

/-- The per-destination sum of the `H` multiplication (lines 266-279):
`h = Σ_{ci ∈ rows[i]} h_v * old_pr[ci]` with
`h_v = 1/num_outgoing[ci]` when the out-degree is non-zero, else `0`. -/
def hSum (t : Table) (old_pr : List ℚ) (i : ℕ) : ℚ :=
  ((t.rows.getD i []).map (fun ci =>
    (if t.num_outgoing.getD ci 0 ≠ 0 then
       (1 : ℚ) / (t.num_outgoing.getD ci 0 : ℚ)
     else 0) * old_pr.getD ci 0)).sum

/-- The dangling-mass sum (lines 234-239): `Σ pr[k]` over the enumeration
indices `k` (starting at `k₀`) with `num_outgoing[k] == 0`. -/
def danglingSum (outd : List ℕ) (k₀ : ℕ) : List ℚ → ℚ
  | [] => 0
  | x :: xs => (if outd.getD k₀ 0 = 0 then x else 0) + danglingSum outd (k₀ + 1) xs

/-- One body run of the `while` loop (lines 231-295). -/
def prStep (t : Table) (num_rows : ℕ) (s : PRState) : PRState :=
  let sum_pr := s.pr.sum
  let dangling_pr := danglingSum t.num_outgoing 0 s.pr
  let old_pr := if s.num_iterations = 0 then s.pr
                else s.pr.map (fun x => x / sum_pr)
  -- after normalisation sum_pr is treated as 1.0 (line 253)
  let one_Av := t.alpha * dangling_pr / (num_rows : ℚ)
  let one_Iv := (1 - t.alpha) * 1 / (num_rows : ℚ)
  let new_pr := (List.range num_rows).map
    (fun i => t.alpha * hSum t old_pr i + one_Av + one_Iv)
  let diff := ((List.range num_rows).map (fun i =>
    let a := new_pr.getD i 0
    let b := old_pr.getD i 0
    if a > b then a - b else b - a)).sum
  { pr := new_pr, old_pr := old_pr, diff := diff,
    num_iterations := s.num_iterations + 1 }

/-- The `while` loop (line 230), with `fuel = max_iterations - num_iterations`
standing for the `num_iterations < max_iterations` conjunct of the guard. -/
def prLoop (t : Table) (num_rows : ℕ) : PRState → ℕ → PRState
  | s, 0 => s
  | s, fuel + 1 => if s.diff > t.convergence
                   then prLoop t num_rows (prStep t num_rows s) fuel
                   else s

/-- The seeding of the rank vector (lines 222-224):
`pr.resize(num_rows, 0.0); pr[0] = 1.0`.  Note `resize` keeps any entries
already present. -/
def seedPr (t : Table) : Table :=
  { t with pr := (resizeList t.pr t.rows.length 0).set 0 1 }

/-- The full loop run performed by `pagerank` on a non-empty store:
initial state `diff = 1.0`, `old_pr = Vec::new()`, `num_iterations = 0`. -/
def pagerankRun (t : Table) : PRState :=
  prLoop t t.rows.length
    { pr := (seedPr t).pr, old_pr := [], diff := 1, num_iterations := 0 }
    t.max_iterations

/-- `Table::pagerank` (lines 209-297): return unchanged on an empty store,
otherwise seed and iterate; only `self.pr` is mutated. -/
def Table.pagerank (t : Table) : Table :=
  if t.rows.length = 0 then t
  else { t with pr := (pagerankRun t).pr }

/-! ## Loop bound and diff sign (C9) -/

lemma prLoop_iters_le (t : Table) (n : ℕ) :
    ∀ (fuel : ℕ) (s : PRState),
      (prLoop t n s fuel).num_iterations ≤ s.num_iterations + fuel := by
  intro fuel
  induction fuel with
  | zero => intro s; simp [prLoop]
  | succ k ih =>
      intro s
      rw [prLoop]
      split
      · have h := ih (prStep t n s)
        have hstep : (prStep t n s).num_iterations = s.num_iterations + 1 := rfl
        omega
      · omega

lemma abs_branch_nonneg (x y : ℚ) : 0 ≤ if x > y then x - y else y - x := by
  split
  next h => linarith
  next h => rw [not_lt] at h; linarith

lemma prStep_diff_nonneg (t : Table) (n : ℕ) (s : PRState) :
    0 ≤ (prStep t n s).diff := by
  dsimp only [prStep]
  apply List.sum_nonneg
  intro x hx
  simp only [List.mem_map, List.mem_range] at hx
  obtain ⟨i, -, rfl⟩ := hx
  exact abs_branch_nonneg _ _

/-- C9: for every store and parameters, the `pagerank` iteration loop runs
its body at most `max_iterations` times (the final `num_iterations` counts
the body runs), and the `diff` computed by any body run — the L1 distance
between successive iterates, accumulated through the branch-computed
absolute values — is non-negative. -/
theorem C9_loop_bound_and_diff_nonneg :
    ∀ t : Table,
      (pagerankRun t).num_iterations ≤ t.max_iterations ∧
      ∀ s : PRState, 0 ≤ (prStep t t.rows.length s).diff := by
  intro t
  constructor
  · have h := prLoop_iters_le t t.rows.length t.max_iterations
      { pr := (seedPr t).pr, old_pr := [], diff := 1, num_iterations := 0 }
    simpa [pagerankRun] using h
  · intro s
    exact prStep_diff_nonneg t t.rows.length s

/-! ## Single isolated vertex (C8) -/

/-- A store with one vertex and no edges, as produced by
`set_num_rows(1)` with the given parameters. -/
def singleVertexTable (a c : ℚ) (mi : ℕ) : Table :=
  (((Table.new.set_alpha a).set_convergence c).set_max_iterations mi).set_num_rows 1

lemma prStep_single (a c : ℚ) (mi : ℕ) (s : PRState) (h : s.pr = [1]) :
    prStep (singleVertexTable a c mi) 1 s =
      { pr := [1], old_pr := [1], diff := 0,
        num_iterations := s.num_iterations + 1 } := by
  obtain ⟨spr, sold, sdiff, sk⟩ := s
  subst h
  by_cases hk : sk = 0 <;>
    · simp only [prStep, danglingSum, hSum, singleVertexTable, Table.set_num_rows,
        Table.set_alpha, Table.set_convergence, Table.set_max_iterations, Table.new,
        resizeList, hk, PRState.mk.injEq]
      norm_num [danglingSum, List.range_succ]

lemma prLoop_single (a c : ℚ) (mi : ℕ) :
    ∀ (fuel : ℕ) (s : PRState), s.pr = [1] →
      (prLoop (singleVertexTable a c mi) 1 s fuel).pr = [1] := by
  intro fuel
  induction fuel with
  | zero => intro s h; simpa [prLoop] using h
  | succ k ih =>
      intro s h
      rw [prLoop]
      split
      · exact ih _ (by rw [prStep_single a c mi s h])
      · exact h

/-- C8: on the one-vertex edgeless store (row count 1, `rows[0]` empty,
`out_degree[0] = 0`) the final rank vector is exactly `[1]` for every
damping factor `alpha ∈ [0, 1)` (and in fact any convergence threshold and
iteration cap): the dangling term `alpha` and the teleport term `1 - alpha`
restore the full mass each iteration. -/
theorem C8_single_isolated_vertex (a c : ℚ) (mi : ℕ)
    (h0 : 0 ≤ a) (h1 : a < 1) :
    (Table.pagerank (singleVertexTable a c mi)).pr = [1] := by
  have hlen : (singleVertexTable a c mi).rows.length = 1 := rfl
  unfold Table.pagerank
  rw [if_neg (by rw [hlen]; exact one_ne_zero)]
  dsimp only
  unfold pagerankRun
  exact prLoop_single a c mi _ _ rfl

/-- Witness for C8 at `alpha = 1/2`, `convergence = 1/100000`, cap 10. -/
theorem C8_witness :
    (0:ℚ) ≤ 1/2 ∧ (1/2:ℚ) < 1 ∧
    (Table.pagerank (singleVertexTable (1/2) (1/100000) 10)).pr = [1] :=
  ⟨by norm_num, by norm_num,
   C8_single_isolated_vertex (1/2) (1/100000) 10 (by norm_num) (by norm_num)⟩

/-! ## Seeding of the rank vector (C3) and determinism (C4) -/

/-- A two-vertex cycle (`0 → 1`, `1 → 0`) with `alpha = 17/20`,
`convergence = 1/100000` and a one-iteration cap, built through the store
API from an empty table. -/
def twoCycleOneIter : Table :=
  ((((Table.new.set_alpha (17 / 20)).set_convergence
      (1 / 100000)).set_max_iterations 1).add_arc 0 1).1.add_arc 1 0 |>.1

/-- C3 counterexample: after a completed `pagerank()` run the rank vector
is left in the store, and the seeding step of a second run
(`pr.resize(num_rows, 0.0); pr[0] = 1.0`) keeps the leftover entries:
entry 1 of the freshly seeded vector is the previous result `37/40`, not
`0.0`. -/
lemma twoCycle_fields :
    twoCycleOneIter.rows = [[1], [0]] ∧ twoCycleOneIter.num_outgoing = [1, 1] ∧
    twoCycleOneIter.alpha = 17/20 ∧ twoCycleOneIter.convergence = 1/100000 ∧
    twoCycleOneIter.max_iterations = 1 ∧ twoCycleOneIter.pr = [] :=
  ⟨rfl, rfl, rfl, rfl, rfl, rfl⟩

lemma prLoop_one_eq (t : Table) (n : ℕ) (s : PRState) :
    prLoop t n s 1 = if s.diff > t.convergence then prStep t n s else s := by
  rw [prLoop]
  split <;> rfl

lemma twoCycle_pr_once : (Table.pagerank twoCycleOneIter).pr = [3/40, 37/40] := by
  have hlen : twoCycleOneIter.rows.length = 2 := rfl
  unfold Table.pagerank
  rw [if_neg (by rw [hlen]; simp)]
  dsimp only
  unfold pagerankRun
  rw [hlen, twoCycle_fields.2.2.2.2.1]
  have hseed : (seedPr twoCycleOneIter).pr = [1, 0] := rfl
  rw [hseed, prLoop_one_eq]
  rw [if_pos (by rw [twoCycle_fields.2.2.2.1]; norm_num)]
  have hr2 : List.range 2 = [0, 1] := rfl
  simp only [prStep, danglingSum, hSum, twoCycle_fields.1, twoCycle_fields.2.1,
    twoCycle_fields.2.2.1, hr2, List.map_cons, List.map_nil, List.sum_cons,
    List.sum_nil, List.getD_cons_zero, List.getD_cons_succ]
  norm_num

theorem C3_counterexample_stale_seed :
    (seedPr (Table.pagerank twoCycleOneIter)).pr.getD 1 0 ≠ 0 := by
  have hpr : (Table.pagerank twoCycleOneIter).pr = [3/40, 37/40] := twoCycle_pr_once
  have hrows : (Table.pagerank twoCycleOneIter).rows = [[1], [0]] := by
    unfold Table.pagerank
    rw [if_neg (by rw [twoCycle_fields.1]; simp)]
    exact twoCycle_fields.1
  simp [seedPr, hpr, hrows, resizeList]

/-- C3 (amended): when `pagerank()` starts on a store whose rank vector is
empty — as after fresh construction or `reset()`, hence on every first run —
the seeded vector has length `n`, entry 0 equal to `1.0` and all other
entries `0.0`.  (A non-empty leftover vector from a previous run is kept by
`resize`, so the "regardless of any rank vector left over" part of the
claim fails; see the counterexample.) -/
theorem C3_seed_fresh_when_pr_empty (t : Table) (h : t.pr = [])
    (hn : 0 < t.rows.length) :
    (seedPr t).pr = 1 :: List.replicate (t.rows.length - 1) 0 := by
  obtain ⟨n, hn2⟩ : ∃ n, t.rows.length = n + 1 := ⟨t.rows.length - 1, by omega⟩
  simp [seedPr, h, hn2, resizeList, List.replicate_succ]

/-- Witness for C3 (amended) on a two-row store with an empty rank vector. -/
theorem C3_witness :
    (seedPr (Table.new.set_num_rows 2)).pr =
      1 :: List.replicate ((Table.new.set_num_rows 2).rows.length - 1) 0 :=
  C3_seed_fresh_when_pr_empty _ rfl (by norm_num [Table.set_num_rows, Table.new, resizeList])

lemma prStep_congr (t u : Table) (n : ℕ) (s : PRState)
    (ha : t.alpha = u.alpha) (hr : t.rows = u.rows)
    (ho : t.num_outgoing = u.num_outgoing) :
    prStep t n s = prStep u n s := by
  simp only [prStep, hSum, danglingSum, ha, hr, ho]

lemma prLoop_congr (t u : Table) (n : ℕ)
    (ha : t.alpha = u.alpha) (hr : t.rows = u.rows)
    (ho : t.num_outgoing = u.num_outgoing)
    (hc : t.convergence = u.convergence) :
    ∀ (fuel : ℕ) (s : PRState), prLoop t n s fuel = prLoop u n s fuel := by
  intro fuel
  induction fuel with
  | zero => intro s; rfl
  | succ k ih =>
      intro s
      rw [prLoop, prLoop, hc]
      split
      · rw [prStep_congr t u n s ha hr ho]
        exact ih _
      · rfl

/-- C4 counterexample: calling `pagerank()` twice in succession on the same
store does not reproduce the rank vector, because the second run is seeded
from the first run's leftover vector (only entry 0 is overwritten). -/
def twoCycleAfterOnce : Table := { twoCycleOneIter with pr := [3/40, 37/40] }

lemma twoCycle_pagerank_eq :
    Table.pagerank twoCycleOneIter = twoCycleAfterOnce := by
  have h := twoCycle_pr_once
  have hlen : twoCycleOneIter.rows.length = 2 := rfl
  unfold Table.pagerank at h ⊢
  rw [if_neg (by rw [hlen]; simp)] at h ⊢
  dsimp only at h
  unfold twoCycleAfterOnce
  rw [h]

lemma twoCycle_pr_twice :
    (Table.pagerank (Table.pagerank twoCycleOneIter)).pr = [689/800, 37/40] := by
  rw [twoCycle_pagerank_eq]
  have hlen : twoCycleAfterOnce.rows.length = 2 := rfl
  unfold Table.pagerank
  rw [if_neg (by rw [hlen]; simp)]
  dsimp only
  unfold pagerankRun
  rw [hlen]
  have hmax : twoCycleAfterOnce.max_iterations = 1 := rfl
  rw [hmax]
  have hseed : (seedPr twoCycleAfterOnce).pr = [1, 37/40] := rfl
  rw [hseed, prLoop_one_eq]
  have hconv : twoCycleAfterOnce.convergence = 1/100000 := rfl
  rw [if_pos (by rw [hconv]; norm_num)]
  have hr2 : List.range 2 = [0, 1] := rfl
  have hrows : twoCycleAfterOnce.rows = [[1], [0]] := rfl
  have houtd : twoCycleAfterOnce.num_outgoing = [1, 1] := rfl
  have halpha : twoCycleAfterOnce.alpha = 17/20 := rfl
  simp only [prStep, danglingSum, hSum, hrows, houtd, halpha, hr2, List.map_cons,
    List.map_nil, List.sum_cons, List.sum_nil, List.getD_cons_zero, List.getD_cons_succ]
  norm_num

theorem C4_counterexample_second_run_differs :
    (Table.pagerank (Table.pagerank twoCycleOneIter)).get_pagerank ≠
      (Table.pagerank twoCycleOneIter).get_pagerank := by
  unfold Table.get_pagerank
  rw [twoCycle_pr_twice, twoCycle_pr_once]
  simp only [ne_eq, List.cons.injEq, not_and]
  intro hcontra
  norm_num at hcontra

/-- C4 (amended): `pagerank()` is deterministic in the full store state
*including the current rank vector*: two stores that agree on `rows`,
`out_degree`, the solver parameters, and the pre-call rank vector produce
bit-identical rank vectors, whatever their other fields (trace flag,
delimiter, mode, name maps).  Two successive calls on one store differ in
general only because the first call leaves its result in `pr`. -/
theorem C4_deterministic_in_full_state (t u : Table)
    (hr : t.rows = u.rows) (ho : t.num_outgoing = u.num_outgoing)
    (ha : t.alpha = u.alpha) (hc : t.convergence = u.convergence)
    (hm : t.max_iterations = u.max_iterations) (hp : t.pr = u.pr) :
    (Table.pagerank t).get_pagerank = (Table.pagerank u).get_pagerank := by
  have hseed : (seedPr t).pr = (seedPr u).pr := by
    simp [seedPr, hp, hr]
  have hrun : (pagerankRun t).pr = (pagerankRun u).pr := by
    unfold pagerankRun
    rw [hr, hm, hseed, prLoop_congr t u u.rows.length ha hr ho hc]
  unfold Table.pagerank Table.get_pagerank
  by_cases h0 : t.rows.length = 0
  · have h0u : u.rows.length = 0 := by rw [← hr]; exact h0
    rw [if_pos h0, if_pos h0u]
    exact hp
  · have h0u : ¬ u.rows.length = 0 := by rw [← hr]; exact h0
    rw [if_neg h0, if_neg h0u]
    exact hrun

/-- Witness for C4 (amended): the same graph/parameters/rank state with a
different delimiter and addressing mode yields the identical vector. -/
theorem C4_witness :
    (Table.pagerank twoCycleOneIter).get_pagerank =
      (Table.pagerank ((twoCycleOneIter.set_numeric true).set_delim [','])).get_pagerank :=
  C4_deterministic_in_full_state _ _ rfl rfl rfl rfl rfl rfl

/-! ## File ingestion (`Table::read_file`, lines 159-206) -/

/-- Rust `str::trim`: drop whitespace from both ends. -/
def trimChars (s : Str) : Str :=
  ((s.dropWhile Char.isWhitespace).reverse.dropWhile Char.isWhitespace).reverse

/-- Rust `str::parse::<usize>`: an optional leading `+` followed by one or
more ASCII digits.  (The 64-bit overflow failure is not modelled; no claim
exercises it.) -/
def parseUsize (s : Str) : Option ℕ :=
  let ds := match s with
    | '+' :: rest => rest
    | _ => s
  if ds = [] then none
  else if ds.all Char.isDigit then
    some (ds.foldl (fun acc c => acc * 10 + (c.toNat - '0'.toNat)) 0)
  else none

/-- Rust `str::find(pat)`: index of the first occurrence of `pat`. -/
def substrPos (pat : Str) : Str → Option ℕ
  | [] => if pat.isPrefixOf ([] : Str) then some 0 else none
  | c :: rest =>
      if pat.isPrefixOf (c :: rest) then some 0
      else (substrPos pat rest).map (· + 1)

/-- Outcome of `read_file` on the list of the file's lines.  The source
signature is `io::Result<i32>`, always `Ok(0)` once reading succeeds (I/O
failures are outside this line-list model); a numeric-mode token that fails
`parse().unwrap()` is a process-aborting panic, not an error value — it has
no `ok` payload and is modelled by `panicked`. -/
inductive ReadResult where
  | ok (t : Table)
  | panicked
  deriving DecidableEq

/-- Projection of a normal `read_file` outcome. -/
def ReadResult.okTable : ReadResult → Option Table
  | .ok t => some t
  | .panicked => none

/-- The per-line body of `read_file`'s loop (lines 166-198): find the first
delimiter occurrence (skip the line if absent), split and trim the two
tokens, resolve each one (parse-and-unwrap in numeric mode, `insert_mapping`
in named mode), and `add_arc`. -/
def processLine (t : Table) (line : Str) : Option Table :=
  match substrPos t.delim line with
  | none => some t
  | some pos =>
      let frm := trimChars (line.take pos)
      let dst := trimChars (line.drop (pos + t.delim.length))
      if t.numeric then
        match parseUsize frm with
        | none => none
        | some from_idx =>
            match parseUsize dst with
            | none => none
            | some to_idx => some (t.add_arc from_idx to_idx).1
      else
        let p1 := t.insert_mapping frm
        let p2 := p1.1.insert_mapping dst
        some (p2.1.add_arc p1.2 p2.2).1

/-- The loop of `read_file`, propagating a panic. -/
def processLines (t : Table) : List Str → Option Table
  | [] => some t
  | l :: ls =>
      match processLine t l with
      | none => none
      | some u => processLines u ls

/-- `Table::read_file` (lines 159-206) on the file's lines: `reset()`, the
per-line loop, then `nodes_to_idx.clear()` and the `reserve` capacity
hint. -/
def readFile (t : Table) (lines : List Str) : ReadResult :=
  match processLines t.reset lines with
  | none => ReadResult.panicked
  | some u =>
      ReadResult.ok (Table.reserve { u with nodes_to_idx := [] } u.idx_to_nodes.length)

/-- A numeric-mode line on which `read_file` panics: it contains the
delimiter and one of its trimmed tokens fails to parse. -/
def badNumericLine (delim l : Str) : Bool :=
  match substrPos delim l with
  | none => false
  | some pos =>
      (parseUsize (trimChars (l.take pos))).isNone ||
      (parseUsize (trimChars (l.drop (pos + delim.length)))).isNone

/-- C6: claimed — `set_num_rows(size)` followed by `read_file` yields a
vertex count of at least `size`, covering isolated vertices below `size`.
But `read_file` begins with `reset()`, which clears `rows` and
`num_outgoing`, discarding the pre-sizing: with `size = 3` and the single
numeric line `0 => 1`, the resulting vertex count is 2, so the isolated
vertex 2 is not counted. -/
theorem C6_reset_discards_presizing :
    (readFile ((Table.new.set_numeric true).set_num_rows 3)
        [['0', ' ', '=', '>', ' ', '1']]).okTable.map
      (fun u => u.get_num_rows) = some 2 := by
  decide

lemma add_arc_preserves_numeric_delim (t : Table) (a b : ℕ) :
    ((t.add_arc a b).1).numeric = t.numeric ∧ ((t.add_arc a b).1).delim = t.delim := by
  simp only [Table.add_arc]
  constructor <;> (repeat' split) <;> rfl

lemma processLine_numeric_none (t : Table) (l : Str) (hn : t.numeric = true)
    (hb : badNumericLine t.delim l = true) : processLine t l = none := by
  unfold processLine badNumericLine at *
  cases hpos : substrPos t.delim l with
  | none => rw [hpos] at hb; simp at hb
  | some pos =>
      rw [hpos] at hb
      dsimp only at hb ⊢
      rw [if_pos hn]
      cases hf : parseUsize (trimChars (l.take pos)) with
      | none => rfl
      | some fi =>
          cases hd : parseUsize (trimChars (l.drop (pos + t.delim.length))) with
          | none => rfl
          | some di => rw [hf, hd] at hb; simp at hb

lemma processLine_numeric_ok (t : Table) (l : Str) (hn : t.numeric = true)
    (hb : badNumericLine t.delim l = false) :
    ∃ u, processLine t l = some u ∧ u.numeric = true ∧ u.delim = t.delim := by
  unfold processLine badNumericLine at *
  cases hpos : substrPos t.delim l with
  | none => exact ⟨t, rfl, hn, rfl⟩
  | some pos =>
      rw [hpos] at hb
      dsimp only at hb ⊢
      rw [if_pos hn]
      cases hf : parseUsize (trimChars (l.take pos)) with
      | none => rw [hf] at hb; simp at hb
      | some fi =>
          cases hd : parseUsize (trimChars (l.drop (pos + t.delim.length))) with
          | none => rw [hf, hd] at hb; simp at hb
          | some di =>
              refine ⟨(t.add_arc fi di).1, rfl, ?_, ?_⟩
              · rw [(add_arc_preserves_numeric_delim t fi di).1]; exact hn
              · exact (add_arc_preserves_numeric_delim t fi di).2

lemma processLines_panics (lines : List Str) :
    ∀ t : Table, t.numeric = true →
      (∃ l ∈ lines, badNumericLine t.delim l = true) →
      processLines t lines = none := by
  induction lines with
  | nil =>
      intro t _ hex
      obtain ⟨l, hl, -⟩ := hex
      cases hl
  | cons x xs ih =>
      intro t hn hex
      obtain ⟨l, hl, hb⟩ := hex
      unfold processLines
      by_cases hbx : badNumericLine t.delim x = true
      · rw [processLine_numeric_none t x hn hbx]
      · obtain ⟨u, hu, hun, hud⟩ :=
          processLine_numeric_ok t x hn (by revert hbx; cases badNumericLine t.delim x <;> simp)
        rw [hu]
        dsimp only
        apply ih u hun
        refine ⟨l, ?_, by rw [hud]; exact hb⟩
        rcases List.mem_cons.mp hl with hcase | hcase
        · exfalso; apply hbx; rw [← hcase]; exact hb
        · exact hcase

/-- C7 (amended): a numeric-mode token that does not parse as a
non-negative integer makes `read_file` panic (the source `unwrap`s the
parse result), aborting ingestion fail-fast with no graph observable; the
failure is an abort, not a typed `ParseError` value surfaced to the caller
(the function's only non-panic outcome is `Ok`). -/
theorem C7_bad_token_panics (t : Table) (lines : List Str)
    (hn : t.numeric = true)
    (hb : ∃ l ∈ lines, badNumericLine t.delim l = true) :
    readFile t lines = ReadResult.panicked := by
  unfold readFile
  rw [processLines_panics lines t.reset hn hb]

/-- Witness for C7 on the single line `x => 1`. -/
theorem C7_witness :
    (Table.new.set_numeric true).numeric = true ∧
    readFile (Table.new.set_numeric true) [['x', ' ', '=', '>', ' ', '1']] =
      ReadResult.panicked :=
  ⟨rfl, C7_bad_token_panics _ _ rfl ⟨['x', ' ', '=', '>', ' ', '1'], by decide⟩⟩

/-- C7 counterexample to the claim as stated: on the numeric-mode line
`x => 1` the outcome of `read_file` is the `unwrap` panic — there is no
typed-error return the caller could receive (the return type's only error
case is an I/O error; parse failures never reach it). -/
theorem C7_counterexample_panic_not_typed_error :
    readFile (Table.new.set_numeric true) [['x', ' ', '=', '>', ' ', '1']] =
      ReadResult.panicked := by
  decide

/-! ## The name↔index maps built by ingestion (C5, C10)

`insert_mapping` assigns dense indices in first-seen order.  The two maps
of a store that has ingested a key sequence are characterised through the
list of distinct keys in first-seen order. -/

/-- The forward map of a distinct-name list, indices starting at `n`. -/
def fwdFrom (n : ℕ) : List Str → List (Str × ℕ)
  | [] => []
  | a :: d => (a, n) :: fwdFrom (n + 1) d

/-- The reverse map of a distinct-name list, indices starting at `n`. -/
def revFrom (n : ℕ) : List Str → List (ℕ × Str)
  | [] => []
  | a :: d => (n, a) :: revFrom (n + 1) d

/-- One ingestion step on the distinct-name list. -/
def stepFS (d : List Str) (k : Str) : List Str := if k ∈ d then d else d ++ [k]

/-- The distinct names of a key sequence in first-seen order. -/
def firstSeen (keys : List Str) : List Str := keys.foldl stepFS []

/-- Feeding a sequence of name tokens through `insert_mapping`, as the
named-mode branch of `read_file` does. -/
def ingestNames (t : Table) (keys : List Str) : Table :=
  keys.foldl (fun u k => (u.insert_mapping k).1) t

lemma fwdFrom_length (d : List Str) : ∀ n : ℕ, (fwdFrom n d).length = d.length := by
  induction d with
  | nil => intro n; rfl
  | cons a d ih => intro n; simp [fwdFrom, ih]

lemma fwdFrom_append (d : List Str) : ∀ (n : ℕ) (k : Str),
    fwdFrom n (d ++ [k]) = fwdFrom n d ++ [(k, n + d.length)] := by
  induction d with
  | nil => intro n k; simp [fwdFrom]
  | cons a d ih =>
      intro n k
      show (a, n) :: fwdFrom (n + 1) (d ++ [k]) =
        (a, n) :: (fwdFrom (n + 1) d ++ [(k, n + (d.length + 1))])
      rw [ih]
      have harith : (n + 1) + d.length = n + (d.length + 1) := by omega
      rw [harith]

lemma revFrom_append (d : List Str) : ∀ (n : ℕ) (k : Str),
    revFrom n (d ++ [k]) = revFrom n d ++ [(n + d.length, k)] := by
  induction d with
  | nil => intro n k; simp [revFrom]
  | cons a d ih =>
      intro n k
      show (n, a) :: revFrom (n + 1) (d ++ [k]) =
        (n, a) :: (revFrom (n + 1) d ++ [(n + (d.length + 1), k)])
      rw [ih]
      have harith : (n + 1) + d.length = n + (d.length + 1) := by omega
      rw [harith]

lemma alistLookup_fwdFrom_none (d : List Str) : ∀ (n : ℕ) (k : Str),
    alistLookup k (fwdFrom n d) = none ↔ k ∉ d := by
  induction d with
  | nil => intro n k; simp [fwdFrom, alistLookup]
  | cons a d ih =>
      intro n k
      by_cases hka : k = a
      · subst hka; simp [fwdFrom, alistLookup]
      · simp [fwdFrom, alistLookup, hka, ih]

lemma alistLookup_revFrom (d : List Str) : ∀ (n i : ℕ),
    alistLookup (n + i) (revFrom n d) = d.get? i := by
  induction d with
  | nil => intro n i; simp [revFrom, alistLookup]
  | cons a d ih =>
      intro n i
      cases i with
      | zero => simp [revFrom, alistLookup]
      | succ j =>
          have hne : ¬ (n + (j + 1) = n) := by omega
          have harg : n + (j + 1) = (n + 1) + j := by omega
          simp only [revFrom, alistLookup, if_neg hne, List.get?]
          rw [harg, ih]

lemma revFrom_fwdFrom_back (d : List Str) : ∀ (n i : ℕ) (a : Str), d.Nodup →
    alistLookup i (revFrom n d) = some a → alistLookup a (fwdFrom n d) = some i := by
  induction d with
  | nil => intro n i a _ h; simp [revFrom, alistLookup] at h
  | cons b d ih =>
      intro n i a hnd h
      have hmem : ∀ j x, alistLookup j (revFrom (n + 1) d) = some x → x ∈ d := by
        clear h ih hnd
        induction d generalizing n with
        | nil => intro j x h; simp [revFrom, alistLookup] at h
        | cons c d ihm =>
            intro j x h
            simp only [revFrom, alistLookup] at h
            by_cases hj : j = n + 1
            · rw [if_pos hj] at h
              simp at h
              simp [h]
            · rw [if_neg hj] at h
              have := ihm (n + 1) j x h
              simp [this]
      simp only [revFrom, alistLookup] at h
      simp only [fwdFrom, alistLookup]
      by_cases hi : i = n
      · rw [if_pos hi] at h
        simp only [Option.some.injEq] at h
        subst h
        rw [if_pos rfl, hi]
      · rw [if_neg hi] at h
        have hain : a ∈ d := hmem i a h
        have hab : ¬ (a = b) := by
          intro hcontra
          subst hcontra
          exact (List.nodup_cons.mp hnd).1 hain
        rw [if_neg hab]
        exact ih (n + 1) i a (List.nodup_cons.mp hnd).2 h

lemma stepFS_nodup (d : List Str) (k : Str) (h : d.Nodup) : (stepFS d k).Nodup := by
  unfold stepFS
  split
  · exact h
  · next hmem => simp [List.nodup_append, h, hmem]

lemma foldl_stepFS_nodup (keys : List Str) :
    ∀ d : List Str, d.Nodup → (keys.foldl stepFS d).Nodup := by
  induction keys with
  | nil => intro d h; exact h
  | cons k ks ih => intro d h; exact ih (stepFS d k) (stepFS_nodup d k h)

lemma insert_mapping_repr (t : Table) (d : List Str) (k : Str)
    (hf : t.nodes_to_idx = fwdFrom 0 d) (hr : t.idx_to_nodes = revFrom 0 d) :
    ((t.insert_mapping k).1.nodes_to_idx = fwdFrom 0 (stepFS d k)) ∧
    ((t.insert_mapping k).1.idx_to_nodes = revFrom 0 (stepFS d k)) ∧
    ((t.insert_mapping k).1.numeric = t.numeric) := by
  unfold Table.insert_mapping stepFS
  by_cases hmem : k ∈ d
  · cases hcase : alistLookup k t.nodes_to_idx with
    | none =>
        exfalso
        rw [hf, alistLookup_fwdFrom_none] at hcase
        exact hcase hmem
    | some j =>
        rw [if_pos hmem]
        exact ⟨hf, hr, rfl⟩
  · cases hcase : alistLookup k t.nodes_to_idx with
    | some j =>
        exfalso
        have hnone : alistLookup k t.nodes_to_idx = none := by
          rw [hf, alistLookup_fwdFrom_none]; exact hmem
        rw [hcase] at hnone
        cases hnone
    | none =>
        rw [if_neg hmem]
        refine ⟨?_, ?_, rfl⟩
        · show t.nodes_to_idx ++ [(k, t.nodes_to_idx.length)] = fwdFrom 0 (d ++ [k])
          rw [hf, fwdFrom_length, fwdFrom_append]
          simp
        · show t.idx_to_nodes ++ [(t.nodes_to_idx.length, k)] = revFrom 0 (d ++ [k])
          rw [hr, hf, fwdFrom_length, revFrom_append]
          simp

lemma ingestNames_repr (keys : List Str) :
    ∀ (t : Table) (d : List Str), d.Nodup →
      t.nodes_to_idx = fwdFrom 0 d → t.idx_to_nodes = revFrom 0 d →
      ((ingestNames t keys).nodes_to_idx = fwdFrom 0 (keys.foldl stepFS d)) ∧
      ((ingestNames t keys).idx_to_nodes = revFrom 0 (keys.foldl stepFS d)) ∧
      ((ingestNames t keys).numeric = t.numeric) := by
  induction keys with
  | nil =>
      intro t d _ hf hr
      exact ⟨hf, hr, rfl⟩
  | cons k ks ih =>
      intro t d hd hf hr
      have h1 := insert_mapping_repr t d k hf hr
      have h2 := ih ((t.insert_mapping k).1) (stepFS d k) (stepFS_nodup d k hd) h1.1 h1.2.1
      simp only [ingestNames, List.foldl] at h2 ⊢
      exact ⟨h2.1, h2.2.1, by rw [h2.2.2, h1.2.2]⟩

/-- C10: `get_node_name` is total only on assigned indices.  In numeric
mode it returns the decimal digit string of the index for *every* index.
In named mode, on a store that ingested the token sequence `keys`, it
returns exactly the entry of the first-seen distinct-name list at the
index: the original ingested name for every index strictly below the
number of names seen, and `none` — the `HashMap` indexing panic — for
every index never assigned. -/
theorem C10_get_node_name_partiality :
    ∀ (t : Table) (keys : List Str) (i : ℕ),
      (t.numeric = true → t.get_node_name i = some (Nat.toDigits 10 i)) ∧
      ((ingestNames Table.new keys).get_node_name i = (firstSeen keys).get? i) := by
  intro t keys i
  constructor
  · intro hn
    unfold Table.get_node_name
    rw [if_pos hn]
  · have h := ingestNames_repr keys Table.new [] List.nodup_nil rfl rfl
    unfold Table.get_node_name
    have hnum : ¬ ((ingestNames Table.new keys).numeric = true) := by
      rw [h.2.2]; simp [Table.new, DEFAULT_NUMERIC]
    rw [if_neg hnum, h.2.1]
    have h0 := alistLookup_revFrom (firstSeen keys) 0 i
    rw [Nat.zero_add] at h0
    exact h0

/-- Witness for C10: numeric mode renders index 7 as `"7"`; ingesting
`a, b, a` assigns `0 ↦ a`, `1 ↦ b`, and index 2 panics (`none`). -/
theorem C10_witness :
    (Table.new.set_numeric true).get_node_name 7 = some (Nat.toDigits 10 7) ∧
    (ingestNames Table.new [['a'], ['b'], ['a']]).get_node_name 1 = some ['b'] ∧
    (ingestNames Table.new [['a'], ['b'], ['a']]).get_node_name 2 = none := by
  refine ⟨(C10_get_node_name_partiality (Table.new.set_numeric true)
    [['a'], ['b'], ['a']] 7).1 rfl, ?_, ?_⟩
  · have h := (C10_get_node_name_partiality Table.new [['a'], ['b'], ['a']] 1).2
    rw [h]; decide
  · have h := (C10_get_node_name_partiality Table.new [['a'], ['b'], ['a']] 2).2
    rw [h]; decide

/-- C5 counterexample: in named mode, after `read_file` completes on the
single line `a => b`, the reverse map still sends index 0 to `a`, but the
forward map has been cleared (`nodes_to_idx.clear()` at the end of
`read_file`), so it does not send `a` back to 0 — the claimed frozen
forward/backward bijection does not survive into the solver phase. -/
theorem C5_counterexample_forward_map_cleared :
    ((readFile Table.new [['a', ' ', '=', '>', ' ', 'b']]).okTable.bind
        (fun u => alistLookup 0 u.idx_to_nodes)) = some ['a'] ∧
    ((readFile Table.new [['a', ' ', '=', '>', ' ', 'b']]).okTable.bind
        (fun u => alistLookup ['a'] u.nodes_to_idx)) = none := by
  decide

/-- C5 (amended): *during* ingestion the two maps do form a consistent
bijection — on any store built by `insert_mapping` from empty, every
assigned index maps through the reverse map to the name that produced it
and back through the forward map to itself; but at the end of `read_file`
the forward map is cleared, so only the reverse (index → name) map remains
available (read-only) when the Solver runs. -/
theorem C5_bijection_during_ingestion_forward_cleared :
    ∀ (keys : List Str) (i : ℕ) (name : Str) (t : Table) (lines : List Str)
      (u : Table),
      (alistLookup i (ingestNames Table.new keys).idx_to_nodes = some name →
        alistLookup name (ingestNames Table.new keys).nodes_to_idx = some i) ∧
      (readFile t lines = ReadResult.ok u → u.nodes_to_idx = []) := by
  intro keys i name t lines u
  constructor
  · intro hlook
    have h := ingestNames_repr keys Table.new [] List.nodup_nil rfl rfl
    rw [h.2.1] at hlook
    rw [h.1]
    exact revFrom_fwdFrom_back (keys.foldl stepFS []) 0 i name
      (foldl_stepFS_nodup keys [] List.nodup_nil) hlook
  · intro hok
    unfold readFile at hok
    cases hres : processLines t.reset lines with
    | none => rw [hres] at hok; cases hok
    | some v =>
        rw [hres] at hok
        cases hok
        rfl

/-- Witness for C5: ingesting `a, b` lets the reverse entry `1 ↦ b` map
back through the forward map; `read_file` on an empty file returns a store
with a cleared forward map. -/
theorem C5_witness :
    alistLookup ['b'] (ingestNames Table.new [['a'], ['b']]).nodes_to_idx = some 1 ∧
    Table.new.nodes_to_idx = [] := by
  constructor
  · exact (C5_bijection_during_ingestion_forward_cleared [['a'], ['b']] 1 ['b']
      Table.new [] Table.new).1 (by decide)
  · exact (C5_bijection_during_ingestion_forward_cleared [['a'], ['b']] 1 ['b']
      Table.new [] Table.new).2 rfl
